import Mathlib

/-!
# Verification of the simple-knowledge-base retrieval pipeline

Shallow embedding of the retrieval pipeline of the simple-knowledge-base
repository: the reranking service, the embedding service, the vector store
(create/exists/add/search), the query flow, the semantic chunker, and the
MCP `kbFetchDoc` tool.  Python floats (model scores, embedding components)
are modelled as rationals; the external model calls (`SentenceTransformer.encode`,
`CrossEncoder.predict`) are passed in as function parameters.
-/

/-- Relevance scores and embedding components (Python floats) modelled as ℚ. -/
abbrev Score := ℚ

/-- An embedding vector. -/
abbrev Vec := List ℚ

/-- From the design, `EmbeddingService.EMBEDDING_DIM`: the declared dimension of
the Alibaba-NLP/gte-multilingual-base model. -/
def EMBEDDING_DIM : Nat := 768

/-! ## Reranking service

`RerankingService.rerank` from `app/services/reranking_service.py`:
builds `[query, doc]` pairs, scores them with the cross-encoder in one
`predict` call, sorts `enumerate(scores)` descending by score (Python
`sorted(..., key=lambda x: x[1], reverse=True)` — a stable sort), and
truncates to `top_k`.  The cross-encoder is the `predict` parameter; the
second component of the result counts how many times `predict` was invoked
(the source calls it exactly once, unconditionally). -/

/-- Embeds `RerankingService.rerank`, instrumented with the number of `predict`
invocations performed. -/
def rerank (predict : List (String × String) → List Score) (query : String)
    (documents : List String) (top_k : Nat) : List (Nat × Score) × Nat :=
  let pairs := documents.map (fun doc => (query, doc))
  let scores := predict pairs
  let ranked := scores.enum.mergeSort (fun a b => decide (b.2 ≤ a.2))
  (ranked.take top_k, 1)

/-! ## Embedding service

`EmbeddingService.encode` from `app/services/embedding_service.py`: raises if
the model was never initialized, otherwise delegates to
`self.model.encode(texts)`.  The loaded `SentenceTransformer` is the `model`
parameter (`none` models the uninitialized state). -/

/-- Embeds `EmbeddingService.encode`. -/
def encode (model : Option (List String → List Vec)) (texts : List String) :
    Except String (List Vec) :=
  match model with
  | none => .error "Embedding model not initialized"
  | some m => .ok (m texts)

/-! ## Vector store service

`VectorStoreService` from `app/services/vector_store.py`, over LanceDB.
A table row is a Python dict, modelled as an association list of field
values; the database is the list of tables in creation order. -/

/-- A value stored in one field of a LanceDB row. -/
inductive FieldVal where
  | str (s : String)
  | vec (v : Vec)
  | int (n : Int)
deriving DecidableEq

/-- One stored row: the Python dict built by `add_documents`. -/
abbrev Row := List (String × FieldVal)

/-- The LanceDB database: named tables with their rows, in insertion order. -/
abbrev DB := List (String × List Row)

/-- The field names of a row, in order. -/
def rowKeys (r : Row) : List String := r.map (·.1)

/-- Embeds `self.db.table_names()`. -/
def table_names (db : DB) : List String := db.map (·.1)

/-- Embeds `VectorStoreService.index_exists`. -/
def index_exists (index_name : String) (db : DB) : Bool :=
  (table_names db).contains index_name

/-- Embeds `VectorStoreService.create_index`: returns `false` (mapped to HTTP 409
Conflict by the API layer) and leaves the database unchanged when the table
already exists; otherwise creates the empty table. -/
def create_index (index_name : String) (db : DB) : Bool × DB :=
  if index_exists index_name db then (false, db)
  else (true, db ++ [(index_name, [])])

/-- LanceDB `open_table`: yields the table's rows, failing (NotFound) when
the table does not exist — the error LanceDB raises for a missing table. -/
def open_table (index_name : String) (db : DB) : Except String (List Row) :=
  match db.lookup index_name with
  | some rows => .ok rows
  | none => .error "Table not found"

/-- The records list comprehension inside `VectorStoreService.add_documents`:
one dict per (chunk, embedding) pair, with a freshly generated id
(`uuid.uuid4()` is the `genId` parameter, applied to the record's position). -/
def build_records (chunks : List String) (embeddings : List Vec)
    (source_document : String) (genId : Nat → String) : List Row :=
  (chunks.zip embeddings).enum.map (fun ie =>
    [("id", FieldVal.str (genId ie.1)),
     ("content", FieldVal.str ie.2.1),
     ("embedding", FieldVal.vec ie.2.2),
     ("source_document", FieldVal.str source_document)])

/-- Embeds `VectorStoreService.add_documents`: opens the table, appends one record
per (chunk, embedding) pair and returns how many were added. -/
def add_documents (index_name : String) (chunks : List String)
    (embeddings : List Vec) (source_document : String) (genId : Nat → String)
    (db : DB) : Except String (Nat × DB) :=
  match open_table index_name db with
  | .error e => .error e
  | .ok _ =>
    let records := build_records chunks embeddings source_document genId
    .ok (records.length,
      db.map (fun t => if t.1 = index_name then (t.1, t.2 ++ records) else t))

/-- Squared L2 distance between a query vector and a stored vector — the
fixed metric of LanceDB's default vector search. -/
def l2dist (q v : Vec) : Score :=
  ((q.zip v).map (fun p => (p.1 - p.2) * (p.1 - p.2))).sum

/-- The stored embedding of a row. -/
def rowEmbedding (r : Row) : Vec :=
  match r.lookup "embedding" with
  | some (FieldVal.vec v) => v
  | _ => []

/-- The stored string field `key` of a row. -/
def rowStr (key : String) (r : Row) : String :=
  match r.lookup key with
  | some (FieldVal.str s) => s
  | _ => ""

/-- The stored integer field `key` of a row. -/
def rowInt (key : String) (r : Row) : Int :=
  match r.lookup key with
  | some (FieldVal.int n) => n
  | _ => 0

/-- Embeds `VectorStoreService.search`: opens the table and returns up to `limit`
rows ordered by ascending distance to the query vector
(`table.search(query_embedding).limit(limit).to_list()`); ties keep
insertion order (stable sort). -/
def search (index_name : String) (query_embedding : Vec) (limit : Nat)
    (db : DB) : Except String (List Row) :=
  match open_table index_name db with
  | .error e => .error e
  | .ok rows =>
    .ok ((rows.mergeSort (fun a b =>
      decide (l2dist query_embedding (rowEmbedding a) ≤
              l2dist query_embedding (rowEmbedding b)))).take limit)

/-! ## Query flow -/

/-- The configured `KB_VECTOR_SEARCH_LIMIT` (backend README): the fixed
number of candidates fetched from vector search before reranking. -/
def VECTOR_SEARCH_LIMIT : Nat := 20

/-- The `top_k` bound of `QueryRequest` (`Field(default=5, ge=1, le=100)`). -/
def top_k_valid (k : Nat) : Prop := 1 ≤ k ∧ k ≤ 100

instance (k : Nat) : Decidable (top_k_valid k) := by
  unfold top_k_valid; infer_instance

/-- The API search result (`types.ts`): content, rerank score as
`relevance_score`, source document and chunk offset. -/
structure SearchResult where
  content : String
  relevance_score : Score
  source_document : String
  chunk_offset : Int
deriving DecidableEq

/-- Modelled from the spec: the `/query` handler (`app/main.py`, not under
`src/`) — verify the index exists (NotFound otherwise), embed the query,
fetch `VECTOR_SEARCH_LIMIT` candidates from the store, rerank them
(`RerankingService.rerank` already sorts descending and truncates to
`top_k`), and map each surviving candidate to a result in ranked order. -/
def queryPipeline (embed : String → Vec)
    (predict : List (String × String) → List Score)
    (index_name query : String) (top_k : Nat) (db : DB) :
    Except String (List SearchResult) :=
  if index_exists index_name db then
    match search index_name (embed query) VECTOR_SEARCH_LIMIT db with
    | .error e => .error e
    | .ok candidates =>
      let docs := candidates.map (rowStr "content")
      let ranked := (rerank predict query docs top_k).1
      .ok (ranked.map (fun p =>
        { content := docs.getD p.1 ""
          relevance_score := p.2
          source_document := rowStr "source_document" (candidates.getD p.1 [])
          chunk_offset := rowInt "chunk_offset" (candidates.getD p.1 []) }))
  else .error "Index not found"

/-! ## Basic facts about rerank -/

/-- The comparison used by `rerank` is transitive. -/
theorem rerank_le_trans (a b c : Nat × Score)
    (hab : decide (b.2 ≤ a.2) = true) (hbc : decide (c.2 ≤ b.2) = true) :
    decide (c.2 ≤ a.2) = true := by
  simp only [decide_eq_true_eq] at *
  exact le_trans hbc hab

/-- The comparison used by `rerank` is total. -/
theorem rerank_le_total (a b : Nat × Score) :
    (decide (b.2 ≤ a.2) || decide (a.2 ≤ b.2)) = true := by
  simp [le_total]

/-- The ranked list produced by `rerank` is sorted by non-increasing score. -/
theorem rerank_sorted (predict : List (String × String) → List Score)
    (query : String) (documents : List String) (top_k : Nat) :
    ((rerank predict query documents top_k).1).Pairwise
      (fun a b => b.2 ≤ a.2) := by
  unfold rerank
  simp only
  have hs := @List.sorted_mergeSort (Nat × Score)
    (fun a b => decide (b.2 ≤ a.2))
    rerank_le_trans rerank_le_total
    ((predict (documents.map (fun doc => (query, doc)))).enum)
  have := hs.sublist (List.take_sublist top_k _)
  exact this.imp (by simp)

/-- The ranked list produced by `rerank` has at most `top_k` entries. -/
theorem rerank_length_le (predict : List (String × String) → List Score)
    (query : String) (documents : List String) (top_k : Nat) :
    ((rerank predict query documents top_k).1).length ≤ top_k := by
  unfold rerank
  simp [List.length_take]

/-! ## Semantic chunker

`ChunkingService.chunk` delegates to `semchunk.chunkerify(tokenizer,
chunk_size)`; the semchunk library itself is an external dependency, not in
the repository.  Modelled from the spec: split on the highest-priority
separator, recursively re-split any unit that alone exceeds the token
budget using the lower-priority separators, and greedily merge consecutive
units (rejoined with their separator) while the merged chunk stays within
the budget; a unit that no separator can split further is emitted as one
oversized chunk.  Text is a list of characters; the tokenizer's
`token_count` is the `tc` parameter. -/

/-- Split a character list on every occurrence of the separator `s`
(Python `str.split`): the separator occurs in none of the returned units,
and re-joining the units with `s` restores the input. -/
def splitSep (s : Char) : List Char → List (List Char)
  | [] => [[]]
  | c :: cs =>
    match splitSep s cs with
    | [] => [[]]
    | u :: us => if c = s then [] :: u :: us else (c :: u) :: us

/-- Join units with the separator `s` between them (Python `s.join`). -/
def joinSep (s : Char) : List (List Char) → List Char
  | [] => []
  | [u] => u
  | u :: us => u ++ s :: joinSep s us

/-- Greedy merging of units into groups, left to right: the next unit is
added to the current group exactly when the grown group still satisfies
`ok`; otherwise the current group is emitted and a new group starts. -/
def greedyAux (ok : List (List Char) → Bool) (cur : List (List Char)) :
    List (List Char) → List (List (List Char))
  | [] => [cur]
  | p :: ps =>
    if ok (cur ++ [p]) then greedyAux ok (cur ++ [p]) ps
    else cur :: greedyAux ok [p] ps

/-- Greedy grouping of a unit list (empty input yields no groups). -/
def greedyGroup (ok : List (List Char) → Bool) :
    List (List Char) → List (List (List Char))
  | [] => []
  | p :: ps => greedyAux ok [p] ps

/-- One level of the chunker: split on the first separator, re-split
oversized units with the remaining separators, then greedily merge. -/
def chunkLevel (tc : List Char → Nat) (max : Nat) :
    List Char → List Char → List (List Char)
  | [], text => [text]
  | s :: rest, text =>
    let units := splitSep s text
    let pieces := units.flatMap (fun u =>
      if tc u ≤ max then [u] else chunkLevel tc max rest u)
    (greedyGroup (fun g => tc (joinSep s g) ≤ max) pieces).map (joinSep s)

/-- The separator hierarchy, highest priority first: line breaks, then
plain spaces. -/
def sepChars : List Char := ['\n', ' ']

/-- Embeds `ChunkingService.chunk` (via the spec-modelled semchunk chunker). -/
def chunk (tc : List Char → Nat) (max : Nat) (text : List Char) :
    List (List Char) :=
  chunkLevel tc max sepChars text

/-! ## Chunker infrastructure lemmas -/

/-- Splitting always yields at least one unit. -/
theorem splitSep_ne_nil (s : Char) (l : List Char) : splitSep s l ≠ [] := by
  cases l with
  | nil => simp [splitSep]
  | cons c cs =>
    simp only [splitSep]
    cases h : splitSep s cs with
    | nil => simp
    | cons u us => by_cases hc : c = s <;> simp [hc]

/-- Concatenating the units of a split recovers the input minus the
separator occurrences. -/
theorem flatten_splitSep (s : Char) (l : List Char) :
    (splitSep s l).flatten = l.filter (fun c => c != s) := by
  induction l with
  | nil => simp [splitSep]
  | cons c cs ih =>
    simp only [splitSep]
    cases h : splitSep s cs with
    | nil => exact absurd h (splitSep_ne_nil s cs)
    | cons u us =>
      rw [h] at ih
      by_cases hc : c = s
      · subst hc
        simp [List.filter_cons, ← ih]
      · simp [hc, List.filter_cons, ← ih]

/-- The separator occurs in no unit of the split. -/
theorem splitSep_not_mem (s : Char) (l : List Char) :
    ∀ u ∈ splitSep s l, s ∉ u := by
  induction l with
  | nil => simp [splitSep]
  | cons c cs ih =>
    intro w hw
    simp only [splitSep] at hw
    cases h : splitSep s cs with
    | nil => exact absurd h (splitSep_ne_nil s cs)
    | cons u us =>
      rw [h] at hw ih
      by_cases hc : c = s
      · subst hc
        simp at hw
        rcases hw with h1 | h2 | h3
        · subst h1; simp
        · exact ih w (by simp [h2])
        · exact ih w (by simp [h3])
      · simp [hc] at hw
        rcases hw with h1 | h3
        · subst h1
          intro hsw
          rcases List.mem_cons.mp hsw with h4 | h5
          · exact hc h4.symm
          · exact ih u (by simp) h5
        · exact ih w (by simp [h3])

/-- Every character of a unit of the split occurs in the input. -/
theorem splitSep_subset (s : Char) (l : List Char) :
    ∀ u ∈ splitSep s l, ∀ c ∈ u, c ∈ l := by
  induction l with
  | nil => simp [splitSep]
  | cons a cs ih =>
    intro w hw c hcw
    simp only [splitSep] at hw
    cases h : splitSep s cs with
    | nil => exact absurd h (splitSep_ne_nil s cs)
    | cons u us =>
      rw [h] at hw ih
      by_cases hc : a = s
      · subst hc
        simp at hw
        rcases hw with h1 | h2 | h3
        · subst h1; simp at hcw
        · exact List.mem_cons_of_mem _ (ih w (by simp [h2]) c hcw)
        · exact List.mem_cons_of_mem _ (ih w (by simp [h3]) c hcw)
      · simp [hc] at hw
        rcases hw with h1 | h3
        · subst h1
          rcases List.mem_cons.mp hcw with h4 | h5
          · exact h4 ▸ List.mem_cons_self a cs
          · exact List.mem_cons_of_mem _ (ih u (by simp) c h5)
        · exact List.mem_cons_of_mem _ (ih w (by simp [h3]) c hcw)

/-- Every character of a rejoined group is the separator or comes from one
of the group's units. -/
theorem mem_joinSep (s : Char) (gs : List (List Char)) :
    ∀ c ∈ joinSep s gs, c = s ∨ ∃ g ∈ gs, c ∈ g := by
  induction gs with
  | nil => simp [joinSep]
  | cons u us ih =>
    cases us with
    | nil => intro c hc; exact Or.inr ⟨u, by simp, by simpa [joinSep] using hc⟩
    | cons v vs =>
      intro c hc
      simp only [joinSep] at hc
      rcases List.mem_append.mp hc with h1 | h2
      · exact Or.inr ⟨u, by simp, h1⟩
      · rcases List.mem_cons.mp h2 with h3 | h4
        · exact Or.inl h3
        · rcases ih c h4 with h5 | ⟨g, hg, hcg⟩
          · exact Or.inl h5
          · exact Or.inr ⟨g, List.mem_cons_of_mem _ hg, hcg⟩

/-- Filtering a rejoined group with a predicate that rejects the separator
keeps exactly the filtered unit contents. -/
theorem filter_joinSep (P : Char → Bool) (s : Char) (hP : P s = false)
    (gs : List (List Char)) :
    (joinSep s gs).filter P = (gs.map (·.filter P)).flatten := by
  induction gs with
  | nil => simp [joinSep]
  | cons u us ih =>
    cases us with
    | nil => simp [joinSep]
    | cons v vs =>
      simp only [joinSep, List.filter_append, List.filter_cons, hP] at *
      simp [ih]

/-- Concatenating the greedy groups restores the unit list. -/
theorem greedyAux_flatten (ok : List (List Char) → Bool)
    (cur : List (List Char)) (ps : List (List Char)) :
    (greedyAux ok cur ps).flatten = cur ++ ps := by
  induction ps generalizing cur with
  | nil => simp [greedyAux]
  | cons p ps ih =>
    by_cases h : ok (cur ++ [p]) <;> simp [greedyAux, h, ih]

/-- Concatenating the greedy groups restores the unit list. -/
theorem greedyGroup_flatten (ok : List (List Char) → Bool)
    (ps : List (List Char)) : (greedyGroup ok ps).flatten = ps := by
  cases ps with
  | nil => simp [greedyGroup]
  | cons p ps => simp [greedyGroup, greedyAux_flatten]

/-- Every greedy group either satisfies the budget check or is a single
unit (which is then emitted on its own even though it fails the check). -/
theorem greedyAux_groups (ok : List (List Char) → Bool)
    (cur : List (List Char)) (ps : List (List Char))
    (hcur : (∃ p, cur = [p]) ∨ ok cur = true) :
    ∀ g ∈ greedyAux ok cur ps, (∃ p, g = [p]) ∨ ok g = true := by
  induction ps generalizing cur with
  | nil => intro g hg; simp only [greedyAux, List.mem_singleton] at hg; exact hg ▸ hcur
  | cons p ps ih =>
    intro g hg
    simp only [greedyAux] at hg
    by_cases h : ok (cur ++ [p])
    · rw [if_pos h] at hg
      exact ih (cur ++ [p]) (Or.inr h) g hg
    · rw [if_neg h] at hg
      rcases List.mem_cons.mp hg with h1 | h2
      · exact h1 ▸ hcur
      · exact ih [p] (Or.inl ⟨p, rfl⟩) g h2

/-- Every greedy group either satisfies the budget check or is a single
unit. -/
theorem greedyGroup_groups (ok : List (List Char) → Bool)
    (ps : List (List Char)) :
    ∀ g ∈ greedyGroup ok ps, (∃ p, g = [p]) ∨ ok g = true := by
  cases ps with
  | nil => simp [greedyGroup]
  | cons p ps => exact greedyAux_groups ok [p] ps (Or.inl ⟨p, rfl⟩)

/-- Characters of any produced chunk come from the input text or from the
separator hierarchy. -/
theorem chunkLevel_chars (tc : List Char → Nat) (max : Nat) :
    ∀ (seps : List Char) (text : List Char),
    ∀ ch ∈ chunkLevel tc max seps text, ∀ c ∈ ch, c ∈ text ∨ c ∈ seps := by
  intro seps
  induction seps with
  | nil =>
    intro text ch hch c hc
    simp only [chunkLevel, List.mem_singleton] at hch
    exact Or.inl (hch ▸ hc)
  | cons s rest ih =>
    intro text ch hch c hc
    simp only [chunkLevel, List.mem_map] at hch
    obtain ⟨g, hg, hch⟩ := hch
    subst hch
    rcases mem_joinSep s g c hc with h1 | ⟨u, hu, hcu⟩
    · exact Or.inr (h1 ▸ List.mem_cons_self s rest)
    · have hupieces : u ∈ (splitSep s text).flatMap (fun u =>
        if tc u ≤ max then [u] else chunkLevel tc max rest u) := by
        have := List.mem_flatten.mpr ⟨g, hg, hu⟩
        rwa [greedyGroup_flatten] at this
      rcases List.mem_flatMap.mp hupieces with ⟨w, hw, hu2⟩
      by_cases hwtc : tc w ≤ max
      · rw [if_pos hwtc] at hu2
        simp only [List.mem_singleton] at hu2
        exact Or.inl (splitSep_subset s text w hw c (hu2 ▸ hcu))
      · rw [if_neg hwtc] at hu2
        rcases ih w u hu2 c hcu with h2 | h3
        · exact Or.inl (splitSep_subset s text w hw c h2)
        · exact Or.inr (List.mem_cons_of_mem _ h3)

/-- Content preservation across one chunking level: mapping each chunk to
its non-separator characters and concatenating yields exactly the input's
non-separator characters, for any predicate rejecting every separator. -/
theorem chunkLevel_content (tc : List Char → Nat) (max : Nat)
    (P : Char → Bool) :
    ∀ (seps : List Char), (∀ x ∈ seps, P x = false) →
    ∀ (text : List Char),
    ((chunkLevel tc max seps text).map (·.filter P)).flatten =
      text.filter P := by
  intro seps
  induction seps with
  | nil => intro _ text; simp [chunkLevel]
  | cons s rest ih =>
    intro hP text
    have hPs : P s = false := hP s (List.mem_cons_self s rest)
    have hPrest : ∀ x ∈ rest, P x = false :=
      fun x hx => hP x (List.mem_cons_of_mem _ hx)
    simp only [chunkLevel]
    rw [List.map_map]
    have hjg : ∀ g ∈ greedyGroup
        (fun g => tc (joinSep s g) ≤ max)
        ((splitSep s text).flatMap (fun u =>
          if tc u ≤ max then [u] else chunkLevel tc max rest u)),
        ((·.filter P) ∘ joinSep s) g = (g.map (·.filter P)).flatten :=
      fun g _ => filter_joinSep P s hPs g
    rw [List.map_congr_left hjg]
    have step1 : ∀ (G : List (List (List Char))),
        (G.map (fun g => (g.map (·.filter P)).flatten)).flatten =
          (G.flatten.map (·.filter P)).flatten := by
      intro G
      induction G with
      | nil => simp
      | cons g gs ihg => simp [ihg]
    rw [step1, greedyGroup_flatten]
    rw [List.map_flatMap, List.flatMap_def, List.flatten_flatten,
      List.map_map]
    have step2 : ∀ u ∈ splitSep s text,
        (List.flatten ∘ fun u =>
          ((if tc u ≤ max then [u] else chunkLevel tc max rest u).map
            (·.filter P))) u = u.filter P := by
      intro u _
      by_cases htc : tc u ≤ max
      · simp only [Function.comp_apply, if_pos htc]; simp
      · simp only [Function.comp_apply, if_neg htc]; exact ih hPrest u
    rw [List.map_congr_left step2, ← List.filter_flatten, flatten_splitSep,
      List.filter_filter]
    apply List.filter_congr
    intro x _
    by_cases hx : P x = true
    · have hxs : (x != s) = true := by
        rcases eq_or_ne x s with h | h
        · subst h; rw [hx] at hPs; cases hPs
        · simp [h]
      simp [hx, hxs]
    · simp only [Bool.not_eq_true] at hx
      simp [hx]

/-- Token-budget property across one chunking level: every produced chunk
fits the budget, except a chunk that contains no separator at all (an
indivisible atom emitted as one oversized chunk). -/
theorem chunkLevel_token_bound (tc : List Char → Nat) (max : Nat) :
    ∀ (seps : List Char), seps.Nodup → ∀ (text : List Char),
    ∀ ch ∈ chunkLevel tc max seps text,
      tc ch ≤ max ∨ ∀ x ∈ seps, x ∉ ch := by
  intro seps
  induction seps with
  | nil => intro _ text ch _; exact Or.inr (by simp)
  | cons s rest ih =>
    intro hnd text ch hch
    have hnds : s ∉ rest := (List.nodup_cons.mp hnd).1
    have hndr : rest.Nodup := (List.nodup_cons.mp hnd).2
    simp only [chunkLevel, List.mem_map] at hch
    obtain ⟨g, hg, hch⟩ := hch
    rcases greedyGroup_groups _ _ g hg with ⟨p, hp⟩ | hok
    · subst hp
      have hjs : joinSep s [p] = p := rfl
      have hchp : ch = p := hch ▸ hjs
      have hpp : p ∈ (splitSep s text).flatMap (fun u =>
          if tc u ≤ max then [u] else chunkLevel tc max rest u) := by
        have := List.mem_flatten.mpr ⟨[p], hg, List.mem_singleton_self p⟩
        rwa [greedyGroup_flatten] at this
      rcases List.mem_flatMap.mp hpp with ⟨u, hu, hp2⟩
      by_cases hutc : tc u ≤ max
      · rw [if_pos hutc] at hp2
        simp only [List.mem_singleton] at hp2
        left
        rw [hchp, hp2]
        exact hutc
      · rw [if_neg hutc] at hp2
        rcases ih hndr u p hp2 with h1 | h2
        · left; rw [hchp]; exact h1
        · right
          intro x hx
          rcases List.mem_cons.mp hx with hxs | hxr
          · subst hxs
            rw [hchp]
            intro hsp
            rcases chunkLevel_chars tc max rest u p hp2 x hsp with hcu | hcr
            · exact splitSep_not_mem x text u hu hcu
            · exact hnds hcr
          · rw [hchp]
            exact h2 x hxr
    · left
      rw [← hch]
      exact of_decide_eq_true (by simpa using hok)

/-! ## MCP tools (`mcp-server/src/tools.ts`) -/

/-- One chunk of `KBFetchResponse` (`tools.ts`). -/
structure KBChunk where
  content : String
  chunk_offset : Int
  relevance_score : Score
deriving DecidableEq

/-- Embeds `KBFetchResponse` (`tools.ts`). -/
structure KBFetchResponse where
  source_document : String
  chunks : List KBChunk
  total_chunks : Nat
deriving DecidableEq

/-- JavaScript `String.prototype.toLowerCase` (character-wise lowering). -/
def toLowerChars (s : String) : List Char := s.data.map Char.toLower

/-- JavaScript `a.toLowerCase().includes(b.toLowerCase())`: case-insensitive
substring containment. -/
def containsCI (hay needle : String) : Bool :=
  decide (toLowerChars needle <:+: toLowerChars hay)

/-- Embeds `kbFetchDoc` (`tools.ts`): queries the backend with the document name as
the query string, keeps only the results whose `source_document` contains
the requested name case-insensitively, and reports the kept chunks and
their count.  The backend `/query` call (over HTTP) is the `backend`
parameter. -/
def kbFetchDoc (backend : String → String → Nat → List SearchResult)
    (indexName sourceDocument : String) (topK : Nat) : KBFetchResponse :=
  let results := backend sourceDocument indexName topK
  let matchingChunks := results.filter
    (fun r => containsCI r.source_document sourceDocument)
  { source_document := sourceDocument
    chunks := matchingChunks.map (fun r =>
      { content := r.content
        chunk_offset := r.chunk_offset
        relevance_score := r.relevance_score })
    total_chunks := matchingChunks.length }

/-! ## Store helper lemmas -/

/-- The number of records currently stored under an index name. -/
def recordCount (index_name : String) (db : DB) : Nat :=
  ((db.lookup index_name).getD []).length

/-- A name reported absent by `index_exists` has no table to look up. -/
theorem lookup_eq_none_of_not_exists (index_name : String) (db : DB)
    (h : index_exists index_name db = false) :
    db.lookup index_name = none := by
  induction db with
  | nil => rfl
  | cons t ts ih =>
    simp only [index_exists, table_names, List.map_cons, List.contains_cons,
      Bool.or_eq_false_iff] at h
    obtain ⟨h1, h2⟩ := h
    have hrec : ts.lookup index_name = none :=
      ih (by simp only [index_exists, table_names]; exact h2)
    simp [List.lookup, h1, hrec]

/-! ## Claim theorems -/

/-- C1.  For every query against an existing collection, the returned
result list is sorted by non-increasing `relevance_score` (the rerank
score) and its length never exceeds the caller's requested `top_k`. -/
theorem query_results_sorted_and_truncated (embed : String → Vec)
    (predict : List (String × String) → List Score)
    (index_name query : String) (top_k : Nat) (db : DB)
    (res : List SearchResult)
    (h : queryPipeline embed predict index_name query top_k db =
      Except.ok res) :
    res.Pairwise (fun a b => b.relevance_score ≤ a.relevance_score) ∧
    res.length ≤ top_k := by
  unfold queryPipeline at h
  by_cases hex : index_exists index_name db
  · rw [if_pos hex] at h
    cases hs : search index_name (embed query) VECTOR_SEARCH_LIMIT db with
    | error e => rw [hs] at h; cases h
    | ok candidates =>
      rw [hs] at h
      simp only [] at h
      injection h with h
      subst h
      constructor
      · apply List.pairwise_map.mpr
        exact (rerank_sorted predict query
          (candidates.map (rowStr "content")) top_k).imp (fun hab => hab)
      · rw [List.length_map]
        exact rerank_length_le predict query
          (candidates.map (rowStr "content")) top_k
  · rw [if_neg hex] at h
    cases h

/-- C1 witness: a concrete query against an existing (empty) collection. -/
theorem query_results_sorted_and_truncated_witness :
    (List.Pairwise (fun a b =>
      b.relevance_score ≤ a.relevance_score) ([] : List SearchResult)) ∧
    ([] : List SearchResult).length ≤ 5 :=
  query_results_sorted_and_truncated (fun _ => []) (fun _ => [])
    "docs" "q" 5 [("docs", [])] []
    (by simp [queryPipeline, search, open_table, rerank, index_exists,
      table_names])

/-- C2 counterexample: a record built by `add_documents`
(`build_records`) for a concrete ingestion carries no `chunk_offset`
field — the stored schema has only id, content, embedding and
source_document. -/
theorem chunk_offset_not_stored_counterexample :
    ¬ (∀ r ∈ build_records ["hello"] [[1]] "doc.md" (fun _ => "u0"),
        "chunk_offset" ∈ rowKeys r) := by
  decide

/-- C2 amended: every record stored by the collection store's add
operation carries exactly the four `DocumentChunk` fields — id, content,
embedding and source_document — and no `chunk_offset`. -/
theorem stored_record_fields (chunks : List String) (embeddings : List Vec)
    (source_document : String) (genId : Nat → String) :
    ∀ r ∈ build_records chunks embeddings source_document genId,
      rowKeys r = ["id", "content", "embedding", "source_document"] := by
  intro r hr
  simp only [build_records, List.mem_map] at hr
  obtain ⟨ie, _, hr⟩ := hr
  subst hr
  rfl

/-- C2 amended witness: the concrete record of a one-chunk ingestion. -/
theorem stored_record_fields_witness :
    rowKeys [("id", FieldVal.str "u0"), ("content", FieldVal.str "hello"),
      ("embedding", FieldVal.vec [1]),
      ("source_document", FieldVal.str "doc.md")] =
      ["id", "content", "embedding", "source_document"] :=
  stored_record_fields ["hello"] [[1]] "doc.md" (fun _ => "u0") _ (by decide)

/-- C3 counterexample: `top_k = 100` is accepted by `QueryRequest`, yet the
fixed candidate limit (20) does not strictly exceed it. -/
theorem candidate_limit_not_above_top_k_counterexample :
    top_k_valid 100 ∧ ¬ (VECTOR_SEARCH_LIMIT > 100) := by
  decide

/-- C3 amended: the candidate limit passed to the store's search is the
fixed constant `VECTOR_SEARCH_LIMIT = 20`; it strictly exceeds the
caller's `top_k` exactly when `top_k ≤ 19` (so in particular for the
default `top_k = 5`), not for every accepted request. -/
theorem candidate_limit_exceeds_small_top_k (k : Nat)
    (hk : top_k_valid k) : VECTOR_SEARCH_LIMIT > k ↔ k ≤ 19 := by
  unfold top_k_valid at hk
  unfold VECTOR_SEARCH_LIMIT
  omega

/-- C3 amended witness: the default `top_k = 5`. -/
theorem candidate_limit_exceeds_small_top_k_witness :
    VECTOR_SEARCH_LIMIT > 5 ↔ 5 ≤ 19 :=
  candidate_limit_exceeds_small_top_k 5 (by decide)

/-- C4 counterexample: on an empty candidate list the result is empty, but
`rerank` still invokes the model's `predict` (once, on an empty pair
list), so "the reranking model is never invoked" fails. -/
theorem rerank_empty_invokes_model_counterexample :
    ¬ (((rerank (fun _ => []) "query" [] 5).1 = [] ∧
        (rerank (fun _ => []) "query" [] 5).2 = 0)) := by
  intro h
  have h2 := h.2
  simp [rerank] at h2

/-- C4 amended: an empty candidate list yields an empty result, but the
reranking model's `predict` is still called — exactly once, with an empty
pair list. -/
theorem rerank_empty_result
    (predict : List (String × String) → List Score) (query : String)
    (top_k : Nat) (h : predict [] = []) :
    rerank predict query [] top_k = ([], 1) := by
  simp [rerank, h]

/-- C4 amended witness. -/
theorem rerank_empty_result_witness :
    rerank (fun _ => []) "query" [] 5 = ([], 1) :=
  rerank_empty_result (fun _ => []) "query" 5 rfl

/-- C5.  Creating a collection whose name already exists fails with
Conflict (`create_index` returns `false`), the database is unchanged, and
in particular the existing collection's record count is unchanged. -/
theorem create_existing_conflict_preserves_count (index_name : String)
    (db : DB) (h : index_exists index_name db = true) :
    create_index index_name db = (false, db) ∧
    recordCount index_name (create_index index_name db).2 =
      recordCount index_name db := by
  constructor
  · unfold create_index
    rw [if_pos h]
  · unfold create_index
    rw [if_pos h]

/-- C5 witness: re-creating an existing collection with one record. -/
theorem create_existing_conflict_preserves_count_witness :
    create_index "docs" [("docs", [[("id", FieldVal.str "u0")]])] =
      (false, [("docs", [[("id", FieldVal.str "u0")]])]) ∧
    recordCount "docs"
      (create_index "docs" [("docs", [[("id", FieldVal.str "u0")]])]).2 =
      recordCount "docs" [("docs", [[("id", FieldVal.str "u0")]])] :=
  create_existing_conflict_preserves_count "docs"
    [("docs", [[("id", FieldVal.str "u0")]])] (by decide)

/-- C6.  `EmbeddingService.encode` delegates to the loaded model unchanged:
whenever the underlying SentenceTransformer meets its contract on the
given texts (one vector per text, each of the declared dimension 768), the
service returns exactly one vector per input text, in corresponding order,
each of length `EMBEDDING_DIM`. -/
theorem encode_one_vector_per_text (m : List String → List Vec)
    (texts : List String)
    (hlen : (m texts).length = texts.length)
    (hdim : ∀ v ∈ m texts, v.length = EMBEDDING_DIM) :
    encode (some m) texts = Except.ok (m texts) ∧
    (m texts).length = texts.length ∧
    ∀ v ∈ m texts, v.length = EMBEDDING_DIM :=
  ⟨rfl, hlen, hdim⟩

/-- A stand-in model meeting the SentenceTransformer contract, used to
instantiate the embedding-service theorem. -/
def constModel : List String → List Vec :=
  fun ts => ts.map (fun _ => List.replicate EMBEDDING_DIM 0)

/-- C6 witness: a concrete two-text batch through a model meeting the
contract. -/
theorem encode_one_vector_per_text_witness :
    encode (some constModel) ["hello", "world"] =
      Except.ok (constModel ["hello", "world"]) ∧
    (constModel ["hello", "world"]).length =
      (["hello", "world"] : List String).length ∧
    ∀ v ∈ constModel ["hello", "world"], v.length = EMBEDDING_DIM :=
  encode_one_vector_per_text constModel ["hello", "world"]
    (by simp [constModel]) (by simp [constModel])

/-- C7.  Concatenating the chunker's chunk texts in output order
reconstructs the original text up to the separator whitespace: the
non-separator characters of the concatenation are exactly those of the
input, in order — no content is lost. -/
theorem chunking_preserves_content (tc : List Char → Nat) (max : Nat)
    (text : List Char) :
    ((chunk tc max text).flatten).filter (fun c => !sepChars.contains c) =
      text.filter (fun c => !sepChars.contains c) := by
  unfold chunk
  rw [List.filter_flatten]
  exact chunkLevel_content tc max (fun c => !sepChars.contains c) sepChars
    (by decide) text

/-- C8.  Every chunk produced by the chunker fits the token budget, except
a chunk containing no separator at all — a single indivisible unit, which
is emitted as one oversized chunk rather than dropped. -/
theorem chunk_token_bound_or_atom (tc : List Char → Nat) (max : Nat)
    (text : List Char) (ch : List Char) (hch : ch ∈ chunk tc max text) :
    tc ch ≤ max ∨ ∀ x ∈ sepChars, x ∉ ch :=
  chunkLevel_token_bound tc max sepChars (by decide) text ch hch

/-- C8 witness: chunking `"ab c"` with token counter `length` and budget 2
produces the chunk `"ab"`, which fits the budget. -/
theorem chunk_token_bound_or_atom_witness :
    List.length ['a', 'b'] ≤ 2 ∨ ∀ x ∈ sepChars, x ∉ (['a', 'b'] : List Char) :=
  chunk_token_bound_or_atom List.length 2 ['a', 'b', ' ', 'c'] ['a', 'b']
    (by decide)

/-- C9.  Searching any nonexistent collection name fails with NotFound,
for every query vector and limit. -/
theorem search_missing_index_not_found (index_name : String) (q : Vec)
    (limit : Nat) (db : DB) (h : index_exists index_name db = false) :
    search index_name q limit db = Except.error "Table not found" := by
  unfold search open_table
  rw [lookup_eq_none_of_not_exists index_name db h]

/-- C9 witness: a concrete search against a database without the name. -/
theorem search_missing_index_not_found_witness :
    search "missing" [1] 5 [("docs", [])] =
      Except.error "Table not found" :=
  search_missing_index_not_found "missing" [1] 5 [("docs", [])] (by decide)

/-- C10.  Every chunk returned by the MCP `kb_fetch_doc` tool comes from a
backend search result whose `source_document` contains the requested
document name case-insensitively, `total_chunks` equals the number of
returned chunks, and — whenever the backend honours its `top_k` bound on
the underlying query — the number of returned chunks never exceeds the
requested `top_k`. -/
theorem kb_fetch_doc_filtered_counted_bounded
    (backend : String → String → Nat → List SearchResult)
    (indexName sourceDocument : String) (topK : Nat)
    (hbound : (backend sourceDocument indexName topK).length ≤ topK) :
    (∀ c ∈ (kbFetchDoc backend indexName sourceDocument topK).chunks,
      ∃ r ∈ backend sourceDocument indexName topK,
        containsCI r.source_document sourceDocument = true ∧
        c.content = r.content ∧ c.chunk_offset = r.chunk_offset ∧
        c.relevance_score = r.relevance_score) ∧
    (kbFetchDoc backend indexName sourceDocument topK).total_chunks =
      (kbFetchDoc backend indexName sourceDocument topK).chunks.length ∧
    (kbFetchDoc backend indexName sourceDocument topK).chunks.length ≤
      topK := by
  refine ⟨?_, ?_, ?_⟩
  · intro c hc
    simp only [kbFetchDoc, List.mem_map] at hc
    obtain ⟨r, hr, hc⟩ := hc
    have hprop := List.of_mem_filter hr
    refine ⟨r, List.mem_of_mem_filter hr, hprop, ?_, ?_, ?_⟩ <;> rw [← hc]
  · simp [kbFetchDoc]
  · simp only [kbFetchDoc, List.length_map]
    exact le_trans (List.length_filter_le _ _) hbound

/-- C10 witness: a backend returning one matching result. -/
theorem kb_fetch_doc_filtered_counted_bounded_witness :
    (∀ c ∈ (kbFetchDoc
        (fun _ _ _ => [⟨"text", 1, "README.md", 3⟩]) "docs" "readme"
        5).chunks,
      ∃ r ∈ (fun (_ _ : String) (_ : Nat) =>
          [(⟨"text", 1, "README.md", 3⟩ : SearchResult)]) "readme" "docs" 5,
        containsCI r.source_document "readme" = true ∧
        c.content = r.content ∧ c.chunk_offset = r.chunk_offset ∧
        c.relevance_score = r.relevance_score) ∧
    (kbFetchDoc (fun _ _ _ => [⟨"text", 1, "README.md", 3⟩]) "docs"
      "readme" 5).total_chunks =
      (kbFetchDoc (fun _ _ _ => [⟨"text", 1, "README.md", 3⟩]) "docs"
        "readme" 5).chunks.length ∧
    (kbFetchDoc (fun _ _ _ => [⟨"text", 1, "README.md", 3⟩]) "docs"
      "readme" 5).chunks.length ≤ 5 :=
  kb_fetch_doc_filtered_counted_bounded
    (fun _ _ _ => [⟨"text", 1, "README.md", 3⟩]) "docs" "readme" 5
    (by simp)
